import Mathlib

/-!
# Verification of the vptree-rs vantage-point tree library

Shallow embedding of `src/vptree.rs` and `src/median.rs`.

Modelling conventions:
* The scalar type parameter `F : Float` of the Rust code is kept abstract through a
  `ScalarOps` record holding the operations the code uses (`PartialOrd::lt`,
  `PartialOrd::gt`, `Sub::sub`, `Float::zero`).  Claims about totally-comparable
  distances instantiate `F := ℤ` (`intOps`, a totally ordered scalar on which every
  comparison succeeds); the claim about NaN behaviour instantiates `F := Option ℤ`
  (`floatOps`) where `none` plays the role of a NaN: exactly as for IEEE floats,
  `<` and `>` return `false` whenever one side is NaN, subtraction propagates NaN,
  and `partial_cmp` returns no ordering.
* Rust panics (`unwrap`, index out of bounds, `Range::new(0,0)`) are modelled by
  `Option`, `none` meaning the operation panicked.
* `rand::thread_rng` draws are modelled by oracle functions keyed by the recursion
  path (`List Bool`) and the call's input, so that every concrete execution of the
  randomized code corresponds to some oracle.
* The external crate function `order_stat::kth_by` (not part of this repository) is
  modelled by an oracle `partit` constrained by `kth_by`'s documented contract
  (`KthBy`): it permutes the slice so that position `k` holds the `k`-th order
  statistic, everything before it compares `≤` and everything after compares `≥`.
* `std::collections::BinaryHeap` with the (total, at `ℚ`) `Ord` on `HeapElem`
  (comparison by `dist`) is modelled by its abstract multiset semantics: a list kept
  sorted in descending `dist` order; `peek` is the head, `pop` drops the head,
  `push` inserts in order, `into_sorted_vec` is the reversed list.
-/

namespace VPT

/-- `TaggedItem` from src/vptree.rs: a point plus the scratch distance field. -/
structure TaggedItem (F T : Type) where
  item : T
  dist : F
  deriving DecidableEq, Repr

/-- The scalar operations the generic Rust code uses on its `F : Float` parameter. -/
structure ScalarOps (F : Type) where
  zero : F
  lt : F → F → Bool
  gt : F → F → Bool
  sub : F → F → F

/-- Totally-ordered scalar model: the integers (every comparison the code performs
succeeds and is consistent with the linear order). -/
def intOps : ScalarOps ℤ :=
  { zero := 0
    lt := fun a b => decide (a < b)
    gt := fun a b => decide (b < a)
    sub := fun a b => a - b }

/-- Float scalar model with NaN: `none` is NaN.  `<` and `>` are `false` when either
side is NaN, and subtraction propagates NaN, as for IEEE floats. -/
def floatOps : ScalarOps (Option ℤ) :=
  { zero := some 0
    lt := fun a b => match a, b with
      | some x, some y => decide (x < y)
      | _, _ => false
    gt := fun a b => match a, b with
      | some x, some y => decide (y < x)
      | _, _ => false
    sub := fun a b => match a, b with
      | some x, some y => some (x - y)
      | _, _ => none }

/-- `PartialOrd::partial_cmp` on the NaN-able scalar: no ordering when a NaN is involved. -/
def partialCmpF (a b : Option ℤ) : Option Ordering :=
  match a, b with
  | some x, some y => some (compare x y)
  | _, _ => none

/-- `select_vantage_point` from src/vptree.rs.  `draw` models the
`Range::new(0, items.len()).ind_sample(&mut rng)` draw (reduced into range, as the
uniform sampler only produces in-range values); the fold returns the index of the
point farthest from the randomly chosen one (first occurrence on ties, the random
index itself if every distance is zero). -/
def selectVantagePoint (ops : ScalarOps F) (dist : T → T → F)
    (items : List (TaggedItem F T)) (draw : ℕ) : ℕ :=
  let i := draw % items.length
  match items.get? i with
  | none => i
  | some randomItem =>
    (items.enum.foldl
      (fun acc p =>
        let d := dist randomItem.item p.2.item
        if ops.gt d acc.1 then (d, p.1) else acc)
      (ops.zero, i)).2

/-- `Vec::swap_remove(i)`: replace position `i` by the last element and pop the last. -/
def swapRemoveAt (l : List α) (i : ℕ) : List α :=
  match l.getLast? with
  | none => []
  | some last => (l.set i last).dropLast

/-- The documented contract of `order_stat::kth_by` (external crate): the output is a
permutation of the input with the `k`-th order statistic at position `k`, everything
before position `k` comparing `≤` it and everything after comparing `≥` it. -/
def KthBy (le : F → F → Prop) (k : ℕ) (l l' : List (TaggedItem F T)) : Prop :=
  l'.Perm l ∧
    ∀ piv ∈ l'.get? k,
      (∀ a ∈ l'.take k, le a.dist piv.dist) ∧
      ∀ b ∈ l'.drop (k + 1), le piv.dist b.dist

/-- Apply the `kth_by` oracle.  `kth_by` rearranges the slice in place, so its output
always has the input's length; the guard merely types that fact (it never fires for
an oracle satisfying `KthBy`, whose first component forces equal lengths). -/
def applyPartit (partit : List Bool → List (TaggedItem F T) → ℕ → List (TaggedItem F T))
    (pos : List Bool) (l : List (TaggedItem F T)) (k : ℕ) : List (TaggedItem F T) :=
  if (partit pos l k).length = l.length then partit pos l k else l

/-- `VPNode` from src/vptree.rs.  The Rust struct is
`{ contents: Option<InnerNode>, center: T }` with
`InnerNode { mu, inner: Box<VPNode>, outer: Option<Box<VPNode>> }`; the three
constructors are the three shapes: `leaf c ↔ contents = None`,
`node1 c mu i ↔ contents = Some {mu, inner, outer: None}`,
`node2 c mu i o ↔ contents = Some {mu, inner, outer: Some o}`. -/
inductive VPNode (F T : Type) where
  | leaf (center : T)
  | node1 (center : T) (mu : F) (inner : VPNode F T)
  | node2 (center : T) (mu : F) (inner : VPNode F T) (outer : VPNode F T)
  deriving DecidableEq, Repr

namespace VPNode

/-- The `center` field. -/
def center : VPNode F T → T
  | leaf c => c
  | node1 c _ _ => c
  | node2 c _ _ _ => c

/-- All points stored in the subtree (every node's `center`). -/
def toList : VPNode F T → List T
  | leaf c => [c]
  | node1 c _ inner => c :: inner.toList
  | node2 c _ inner outer => c :: (inner.toList ++ outer.toList)

end VPNode

theorem swapRemoveAt_length (l : List α) (i : ℕ) (h : l ≠ []) :
    (swapRemoveAt l i).length = l.length - 1 := by
  unfold swapRemoveAt
  match hl : l.getLast? with
  | none => exact absurd (List.getLast?_eq_none_iff.mp hl) h
  | some last => simp [List.length_dropLast]

theorem applyPartit_length (partit : List Bool → List (TaggedItem F T) → ℕ → List (TaggedItem F T))
    (pos : List Bool) (l : List (TaggedItem F T)) (k : ℕ) :
    (applyPartit partit pos l k).length = l.length := by
  unfold applyPartit
  split <;> simp_all

/-- The body of `VPNode::new` between `swap_remove` and `split_off`: retag every
remaining point with its distance to the vantage point, run `kth_by` at rank
`(n-1)/2` when `n > 1`, and split at `(n+1)/2` into the inner (left) and outer
(right) halves. -/
def splitItems (dist : T → T → F)
    (partit : List Bool → List (TaggedItem F T) → ℕ → List (TaggedItem F T))
    (pos : List Bool) (vp : TaggedItem F T) (rest : List (TaggedItem F T)) :
    List (TaggedItem F T) × List (TaggedItem F T) :=
  let tagged := rest.map fun ti => ⟨ti.item, dist ti.item vp.item⟩
  let n := tagged.length
  let arr := if 1 < n then applyPartit partit pos tagged ((n - 1) / 2) else tagged
  (arr.take ((n + 1) / 2), arr.drop ((n + 1) / 2))

theorem splitItems_fst_le (dist : T → T → F) (partit) (pos : List Bool)
    (vp : TaggedItem F T) (rest : List (TaggedItem F T)) :
    (splitItems dist partit pos vp rest).1.length ≤ rest.length := by
  simp only [splitItems]
  split <;> simp [applyPartit_length]

theorem splitItems_snd_le (dist : T → T → F) (partit) (pos : List Bool)
    (vp : TaggedItem F T) (rest : List (TaggedItem F T)) :
    (splitItems dist partit pos vp rest).2.length ≤ rest.length := by
  simp only [splitItems]
  split <;> simp [applyPartit_length]

/-- `VPNode::new` from src/vptree.rs.  `pos` is the recursion path (root `[]`,
`false` pushed for the inner recursion, `true` for the outer one) so that the
random-draw oracle `seldraw` and the `kth_by` oracle `partit` can make an
independent choice at every call site.  `none` models a panic; the only panic is
`Range::new(0, 0)` inside `select_vantage_point` on an empty input, which the
library never reaches. -/
def VPNode.new (ops : ScalarOps F) (dist : T → T → F)
    (seldraw : List Bool → List (TaggedItem F T) → ℕ)
    (partit : List Bool → List (TaggedItem F T) → ℕ → List (TaggedItem F T)) :
    (pos : List Bool) → (items : List (TaggedItem F T)) → Option (VPNode F T)
  | _, [] => none
  | _, [ti] => some (.leaf ti.item)
  | pos, a :: b :: tl =>
    let si := selectVantagePoint ops dist (a :: b :: tl) (seldraw pos (a :: b :: tl))
    match (a :: b :: tl).get? si with
    | none => none
    | some vp =>
      let left := (splitItems dist partit pos vp (swapRemoveAt (a :: b :: tl) si)).1
      let right := (splitItems dist partit pos vp (swapRemoveAt (a :: b :: tl) si)).2
      match left.getLast? with
      | some lastTi =>
        match VPNode.new ops dist seldraw partit (false :: pos) left with
        | none => none
        | some inner =>
          if right.isEmpty then some (.node1 vp.item lastTi.dist inner)
          else
            match VPNode.new ops dist seldraw partit (true :: pos) right with
            | none => none
            | some outer => some (.node2 vp.item lastTi.dist inner outer)
      | none => some (.leaf vp.item)
  termination_by _ l => l.length
  decreasing_by
  all_goals
    have hlen : (swapRemoveAt (a :: b :: tl) si).length = (a :: b :: tl).length - 1 :=
      swapRemoveAt_length _ si (by simp)
    first
    | exact lt_of_le_of_lt (splitItems_fst_le dist partit pos vp (swapRemoveAt (a :: b :: tl) si))
        (by simp at hlen ⊢; omega)
    | exact lt_of_le_of_lt (splitItems_snd_le dist partit pos vp (swapRemoveAt (a :: b :: tl) si))
        (by simp at hlen ⊢; omega)

/-- `BinaryHeap::push` on the abstract heap (a list sorted descending by distance):
insert keeping the maximum at the head. -/
def insertDesc (ops : ScalarOps F) (x : F × T) : List (F × T) → List (F × T)
  | [] => [x]
  | y :: ys => if ops.gt x.1 y.1 then x :: y :: ys else y :: insertDesc ops x ys

/-- The candidate-insertion step of `VPNode::nearest_neighbors` (lines 161-169 of
src/vptree.rs): push when the heap holds fewer than `n` elements, otherwise peek
the current worst — `heap.peek().unwrap()` panics (`none`) on an empty heap — and
replace it when it is strictly farther than the new element. -/
def pushHeap (ops : ScalarOps F) (n : ℕ) (d : F) (c : T) (heap : List (F × T)) :
    Option (List (F × T)) :=
  if heap.length < n then some (insertDesc ops (d, c) heap)
  else
    match heap with
    | [] => none
    | top :: rest => if ops.gt top.1 d then some (insertDesc ops (d, c) rest) else some (top :: rest)

/-- `VPNode::nearest_neighbors` from src/vptree.rs.  The heap entries pair the
distance with the node's center (the only part of the node reference the library
ever reads back).  Children are visited outer-first when `d_center > mu`; before
each descent the current worst distance is re-read via `heap.peek().unwrap()`
(`none` models that unwrap panicking on an empty heap, which happens iff `n = 0`),
and the child is skipped unless `d_max > d - mu` (inner) resp. `d_max > mu - d`
(outer). -/
def VPNode.nearestNeighbors (ops : ScalarOps F) (dist : T → T → F) (q : T) (n : ℕ) :
    VPNode F T → List (F × T) → Option (List (F × T))
  | .leaf c, heap => pushHeap ops n (dist q c) c heap
  | .node1 c mu inner, heap =>
    match pushHeap ops n (dist q c) c heap with
    | none => none
    | some h1 =>
      -- Only the inner child exists; the visit order swap is immaterial.
      match h1 with
      | [] => none
      | top :: _ =>
        if ops.gt top.1 (ops.sub (dist q c) mu) then
          inner.nearestNeighbors ops dist q n h1
        else some h1
  | .node2 c mu inner outer, heap =>
    match pushHeap ops n (dist q c) c heap with
    | none => none
    | some h1 =>
      if ops.gt (dist q c) mu then
        -- outside the ring: outer first, then inner
        match
          (match h1 with
           | [] => none
           | top :: _ =>
             if ops.gt top.1 (ops.sub mu (dist q c)) then
               outer.nearestNeighbors ops dist q n h1
             else some h1) with
        | none => none
        | some h2 =>
          match h2 with
          | [] => none
          | top :: _ =>
            if ops.gt top.1 (ops.sub (dist q c) mu) then
              inner.nearestNeighbors ops dist q n h2
            else some h2
      else
        -- inside the ring: inner first, then outer
        match
          (match h1 with
           | [] => none
           | top :: _ =>
             if ops.gt top.1 (ops.sub (dist q c) mu) then
               inner.nearestNeighbors ops dist q n h1
             else some h1) with
        | none => none
        | some h2 =>
          match h2 with
          | [] => none
          | top :: _ =>
            if ops.gt top.1 (ops.sub mu (dist q c)) then
              outer.nearestNeighbors ops dist q n h2
            else some h2

/-- `VPNode::within_radius` from src/vptree.rs: append the center when
`d_center < radius`, then visit the children (outer first when `d_center > mu`),
skipping a child unless `radius > d_center - mu` (inner) resp.
`radius > mu - d_center` (outer). -/
def VPNode.withinRadius (ops : ScalarOps F) (dist : T → T → F) (q : T) (radius : F) :
    VPNode F T → List (F × T) → List (F × T)
  | .leaf c, v => if ops.lt (dist q c) radius then v ++ [(dist q c, c)] else v
  | .node1 c mu inner, v =>
    let v1 := if ops.lt (dist q c) radius then v ++ [(dist q c, c)] else v
    if ops.gt radius (ops.sub (dist q c) mu) then inner.withinRadius ops dist q radius v1 else v1
  | .node2 c mu inner outer, v =>
    let v1 := if ops.lt (dist q c) radius then v ++ [(dist q c, c)] else v
    if ops.gt (dist q c) mu then
      let v2 := if ops.gt radius (ops.sub mu (dist q c)) then
        outer.withinRadius ops dist q radius v1 else v1
      if ops.gt radius (ops.sub (dist q c) mu) then
        inner.withinRadius ops dist q radius v2 else v2
    else
      let v2 := if ops.gt radius (ops.sub (dist q c) mu) then
        inner.withinRadius ops dist q radius v1 else v1
      if ops.gt radius (ops.sub mu (dist q c)) then
        outer.withinRadius ops dist q radius v2 else v2

/-- Insertion (ascending by distance) used to model `Vec::sort` on `HeapElem`s,
whose `Ord` compares by distance. -/
def insertAsc (ops : ScalarOps F) (x : F × T) : List (F × T) → List (F × T)
  | [] => [x]
  | y :: ys => if ops.lt x.1 y.1 then x :: y :: ys else y :: insertAsc ops x ys

/-- `elems.sort()` of src/vptree.rs line 266, modelled by insertion sort ascending
by distance (the claims considered are insensitive to the order among equal
distances). -/
def sortAsc (ops : ScalarOps F) : List (F × T) → List (F × T)
  | [] => []
  | x :: xs => insertAsc ops x (sortAsc ops xs)

/-- `VPTree` from src/vptree.rs: owns a single root node. -/
structure VPTree (F T : Type) where
  root : VPNode F T
  deriving DecidableEq, Repr

/-- `VPTree::new`: `None` iff the input is empty, otherwise tag every point with a
zero scratch distance and build the root. -/
def VPTree.new (ops : ScalarOps F) (dist : T → T → F)
    (seldraw : List Bool → List (TaggedItem F T) → ℕ)
    (partit : List Bool → List (TaggedItem F T) → ℕ → List (TaggedItem F T))
    (items : List T) : Option (VPTree F T) :=
  if 0 < items.length then
    (VPNode.new ops dist seldraw partit [] (items.map fun x => ⟨x, ops.zero⟩)).map VPTree.mk
  else none

/-- `VPTree::within_radius`: run the node query, sort ascending by distance when
`sorted`, and return the centers. -/
def VPTree.withinRadius (ops : ScalarOps F) (dist : T → T → F)
    (t : VPTree F T) (q : T) (radius : F) (sorted : Bool) : List T :=
  let elems := t.root.withinRadius ops dist q radius []
  (if sorted then sortAsc ops elems else elems).map (·.2)

/-- `VPTree::nearest_neighbors`: run the node query on an empty heap;
`into_sorted_vec` (ascending) is the reverse of the descending heap list,
`into_vec` is the heap's own order. -/
def VPTree.nearestNeighbors (ops : ScalarOps F) (dist : T → T → F)
    (t : VPTree F T) (q : T) (k : ℕ) (sorted : Bool) : Option (List T) :=
  (t.root.nearestNeighbors ops dist q k []).map fun h =>
    (if sorted then h.reverse else h).map (·.2)

/-! ## Concrete instances used to instantiate the claims

`absDist` is the absolute-difference metric on integer points; `sortTI` (insertion
sort by the scratch distance) is a concrete behaviour of `order_stat::kth_by`
satisfying its contract for every rank, used to witness and to refute claims on
explicit inputs. -/

/-- The absolute-difference metric on the line (the metric used by the repository's
own `tests/harmonic.rs`, at integer points). -/
def absDist (x y : ℤ) : ℤ := |x - y|

/-- Insert a tagged item into a list sorted ascending by scratch distance. -/
def insTI (ti : TaggedItem ℤ T) : List (TaggedItem ℤ T) → List (TaggedItem ℤ T)
  | [] => [ti]
  | y :: ys => if ti.dist ≤ y.dist then ti :: y :: ys else y :: insTI ti ys

/-- Insertion sort ascending by scratch distance. -/
def sortTI : List (TaggedItem ℤ T) → List (TaggedItem ℤ T)
  | [] => []
  | x :: xs => insTI x (sortTI xs)

/-- A concrete `kth_by` oracle: fully sort by distance.  A sorted rearrangement is
one of the rearrangements `kth_by` is allowed to produce, for every rank. -/
def sortPartit : List Bool → List (TaggedItem ℤ T) → ℕ → List (TaggedItem ℤ T) :=
  fun _ l _ => sortTI l

/-- Ascending order by scratch distance. -/
def leDist (a b : TaggedItem ℤ T) : Prop := a.dist ≤ b.dist

/-! ## src/median.rs: `small_median_by` and `quick_select_by` -/

/-- `small_median_by` from src/median.rs: the unrolled decision tree for slices of
length 1-3.  The `unimplemented!()` arm for other lengths is modelled by a junk `0`;
the only call site (`quick_select_by`) always passes a 3-element slice. -/
def small_median_by (f : T → T → Bool) (arr : List T) : ℕ :=
  match arr with
  | [_] => 0
  | [a, b] => if f a b then 0 else 1
  | [a, b, c] =>
    if f b c then
      if f b a then
        if f a c then 0 else 2
      else 1
    else
      if f c a then
        if f a b then 0 else 1
      else 2
  | _ => 0

/-- `Vec::swap(i, j)`; both indices are in range at every call site (the model
returns the list unchanged otherwise). -/
def lswap (l : List α) (i j : ℕ) : List α :=
  match l.get? i, l.get? j with
  | some a, some b => (l.set i b).set j a
  | _, _ => l

/-- `rng.gen_range(lo, hi)`: the draw `x` reduced into `[lo, hi)` (the uniform
sampler only produces in-range values; `hi > lo` at every call site). -/
def genRange (lo hi x : ℕ) : ℕ := lo + x % (hi - lo)

/-- The inner ascending scan of `quick_select_by`'s Hoare partition: advance
`small_it` until `f(arr[0], arr[small_it])`.  Running past the end of the slice is
an index-out-of-bounds panic, modelled by `none`. -/
def scanUp (f : T → T → Bool) (arr : List T) (piv : T) (i : ℕ) : Option ℕ :=
  match h : arr.get? i with
  | none => none
  | some a => if f piv a then some i else scanUp f arr piv (i + 1)
  termination_by arr.length - i
  decreasing_by
    have hi : i < arr.length := by
      by_contra hge
      rw [List.get?_eq_none.mpr (le_of_not_lt hge)] at h
      exact absurd h (by simp)
    omega

/-- The inner descending scan: decrement `large_it` until `f(arr[large_it], arr[0])`.
Decrementing past 0 underflows the unsigned index (a panic), modelled by `none`. -/
def scanDown (f : T → T → Bool) (arr : List T) (piv : T) : ℕ → Option ℕ
  | 0 =>
    match arr.get? 0 with
    | none => none
    | some a => if f a piv then some 0 else none
  | i + 1 =>
    match arr.get? (i + 1) with
    | none => none
    | some a => if f a piv then some (i + 1) else scanDown f arr piv i

/-- The outer two-pointer loop of `quick_select_by` (lines 103-120 of
src/median.rs), with explicit fuel: `none` for every fuel value means the loop runs
forever.  Returns the rearranged slice and the final `large_it`. -/
def partitionLoop (f : T → T → Bool) : ℕ → List T → ℕ → ℕ → Option (List T × ℕ)
  | 0, _, _, _ => none
  | fuel + 1, arr, si, li =>
    match arr.get? 0 with
    | none => none
    | some piv =>
      match scanUp f arr piv si with
      | none => none
      | some si' =>
        match scanDown f arr piv li with
        | none => none
        | some li' =>
          if li' ≤ si' then some (arr, li')
          else partitionLoop f fuel (lswap arr si' li') si' li'

/-- `quick_select_by` from src/median.rs, with explicit fuel for its unbounded
loop/recursion (`none` for every fuel value means the call never returns) and the
`thread_rng` draws supplied as a list (three per invocation).  In-place mutation of
sub-slices is modelled by recomposing `take`/`drop` around the recursed part. -/
def quickSelectBy (f : T → T → Bool) : ℕ → List ℕ → List T → ℕ → Option (List T)
  | fuel, draws, arr, k =>
    let n := arr.length
    if n ≤ 1 then some arr
    else if n = 2 then
      match arr with
      | [a, b] => if f b a then some [b, a] else some [a, b]
      | _ => some arr
    else
      match fuel with
      | 0 => none
      | fuel + 1 =>
        let arr1 := lswap arr 0 (genRange 0 n (draws.getD 0 0))
        let arr2 := lswap arr1 1 (genRange 1 n (draws.getD 1 0))
        let arr3 := lswap arr2 2 (genRange 2 n (draws.getD 2 0))
        let arr4 := lswap arr3 0 (small_median_by f (arr3.take 3))
        match partitionLoop f fuel arr4 1 (n - 1) with
        | none => none
        | some (arr5, li) =>
          let arr6 := lswap arr5 0 li
          if k < li then
            match quickSelectBy f fuel (draws.drop 3) (arr6.take li) k with
            | none => none
            | some pre => some (pre ++ arr6.drop li)
          else if li < k then
            match quickSelectBy f fuel (draws.drop 3) (arr6.drop (li + 1)) (k - li - 1) with
            | none => none
            | some post => some (arr6.take (li + 1) ++ post)
          else some arr6
  termination_by fuel _ _ _ => fuel

/-- The `≤` predicate on naturals, as passed to `quick_select_by` by the
repository's own `test_quick_select_by`. -/
def natLe (a b : ℕ) : Bool := decide (a ≤ b)

/-! ## A NaN-producing distance function (for the incomparable-value claims) -/

/-- A distance function that yields NaN (`none`) whenever the query point `99` is
involved, and the ordinary absolute difference otherwise — the error scenario of a
not-a-number distance value arising during a query. -/
def nanDist (x y : ℤ) : Option ℤ :=
  if x = 99 ∨ y = 99 then none else some |x - y|

/-! ## Invariant predicates on built trees -/

/-- The structural facts `VPNode::new` establishes at every node, stated on the
built tree: with `c` the node's center, every inner point is within `mu` of it,
some inner point realizes `mu` (it is the exact maximum, not an approximation),
every outer point is at least `mu` away, the inner half holds `ceil(n/2)` of the
`n` remaining points and the outer half `floor(n/2)` (so the outer subtree is
absent exactly when `n = 1`, i.e. the node's set had exactly 2 points). -/
def VPNode.BuildInv (dist : T → T → ℤ) : VPNode ℤ T → Prop
  | .leaf _ => True
  | .node1 c mu inner =>
      (∀ p ∈ inner.toList, dist p c ≤ mu) ∧
      (∃ p ∈ inner.toList, dist p c = mu) ∧
      inner.toList.length = 1 ∧
      inner.BuildInv dist
  | .node2 c mu inner outer =>
      (∀ p ∈ inner.toList, dist p c ≤ mu) ∧
      (∃ p ∈ inner.toList, dist p c = mu) ∧
      (∀ p ∈ outer.toList, mu ≤ dist p c) ∧
      inner.toList.length = (inner.toList.length + outer.toList.length + 1) / 2 ∧
      outer.toList.length = (inner.toList.length + outer.toList.length) / 2 ∧
      inner.BuildInv dist ∧ outer.BuildInv dist

/-- The ring invariant of the spec's claim, in its amended form: every point in an
inner subtree is within `mu` of the node's center, every point in an outer subtree
is at least `mu` away. -/
def VPNode.RingInv (dist : T → T → ℤ) : VPNode ℤ T → Prop
  | .leaf _ => True
  | .node1 c mu inner =>
      (∀ p ∈ inner.toList, dist p c ≤ mu) ∧ inner.RingInv dist
  | .node2 c mu inner outer =>
      (∀ p ∈ inner.toList, dist p c ≤ mu) ∧
      (∀ p ∈ outer.toList, mu ≤ dist p c) ∧
      inner.RingInv dist ∧ outer.RingInv dist

/-- The ring invariant exactly as the spec states it: outer points strictly farther
than `mu`. -/
def VPNode.StrictRingInv (dist : T → T → ℤ) : VPNode ℤ T → Prop
  | .leaf _ => True
  | .node1 c mu inner =>
      (∀ p ∈ inner.toList, dist p c ≤ mu) ∧ inner.StrictRingInv dist
  | .node2 c mu inner outer =>
      (∀ p ∈ inner.toList, dist p c ≤ mu) ∧
      (∀ p ∈ outer.toList, mu < dist p c) ∧
      inner.StrictRingInv dist ∧ outer.StrictRingInv dist

/-- The split bookkeeping of the spec: at every internal node with `n` remaining
points the inner child holds `ceil(n/2)` of them and the outer child `floor(n/2)`
(so the outer child is absent exactly when `floor(n/2) = 0`, i.e. `n = 1`, i.e. the
node's set had exactly 2 points), and `mu` is attained as the exact maximum
vantage-point distance over the inner half. -/
def VPNode.SplitOk (dist : T → T → ℤ) : VPNode ℤ T → Prop
  | .leaf _ => True
  | .node1 c mu inner =>
      inner.toList.length = 1 ∧
      (∀ p ∈ inner.toList, dist p c ≤ mu) ∧
      (∃ p ∈ inner.toList, dist p c = mu) ∧
      inner.SplitOk dist
  | .node2 c mu inner outer =>
      inner.toList.length = (inner.toList.length + outer.toList.length + 1) / 2 ∧
      outer.toList.length = (inner.toList.length + outer.toList.length) / 2 ∧
      0 < outer.toList.length ∧
      (∀ p ∈ inner.toList, dist p c ≤ mu) ∧
      (∃ p ∈ inner.toList, dist p c = mu) ∧
      inner.SplitOk dist ∧ outer.SplitOk dist

/-! ## Complete-scan reference for the radius query -/

/-- The entries a complete scan would collect from the points of `l`: distance-item
pairs for every point strictly within the radius. -/
def filtmap (dist : T → T → ℤ) (q : T) (r : ℤ) (l : List T) : List (ℤ × T) :=
  (l.filter fun p => decide (dist q p < r)).map fun p => (dist q p, p)

/-! ## Theorems -/

theorem VPNode.toList_ne_nil (t : VPNode F T) : t.toList ≠ [] := by
  cases t <;> simp [VPNode.toList]

theorem insTI_perm (ti : TaggedItem ℤ T) (l : List (TaggedItem ℤ T)) :
    (insTI ti l).Perm (ti :: l) := by
  induction l with
  | nil => simp [insTI]
  | cons y ys ih =>
    by_cases h : ti.dist ≤ y.dist
    · simp [insTI, h]
    · simp only [insTI, if_neg h]
      exact (ih.cons y).trans (List.Perm.swap ti y ys)

theorem insTI_pairwise (ti : TaggedItem ℤ T) (l : List (TaggedItem ℤ T))
    (h : l.Pairwise leDist) : (insTI ti l).Pairwise leDist := by
  induction l with
  | nil => simp [insTI, List.Pairwise]
  | cons y ys ih =>
    rcases List.pairwise_cons.mp h with ⟨hy, hys⟩
    by_cases hle : ti.dist ≤ y.dist
    · simp only [insTI, if_pos hle]
      refine List.pairwise_cons.mpr ⟨?_, h⟩
      intro b hb
      rcases List.mem_cons.mp hb with rfl | hb
      · exact hle
      · exact le_trans hle (hy b hb)
    · simp only [insTI, if_neg hle]
      refine List.pairwise_cons.mpr ⟨?_, ih hys⟩
      intro b hb
      have hb' : b ∈ ti :: ys := (insTI_perm ti ys).mem_iff.mp hb
      rcases List.mem_cons.mp hb' with rfl | hb'
      · exact le_of_lt (lt_of_not_le hle)
      · exact hy b hb'

theorem sortTI_perm (l : List (TaggedItem ℤ T)) : (sortTI l).Perm l := by
  induction l with
  | nil => simp [sortTI]
  | cons x xs ih => exact (insTI_perm x (sortTI xs)).trans (ih.cons x)

theorem sortTI_pairwise (l : List (TaggedItem ℤ T)) : (sortTI l).Pairwise leDist := by
  induction l with
  | nil => simp [sortTI, List.Pairwise]
  | cons x xs ih => exact insTI_pairwise x (sortTI xs) ih

/-- Any rearrangement sorted ascending by distance satisfies `kth_by`'s contract at
every in-range rank. -/
theorem pairwise_kthBy {l l' : List (TaggedItem ℤ T)} (hp : l'.Perm l)
    (hs : l'.Pairwise leDist) (k : ℕ) :
    KthBy (fun a b : ℤ => a ≤ b) k l l' := by
  refine ⟨hp, ?_⟩
  intro piv hpiv
  rw [List.get?_eq_getElem?, Option.mem_def] at hpiv
  rcases List.getElem?_eq_some.mp hpiv with ⟨hk, hkeq⟩
  have hpg := List.pairwise_iff_getElem.mp hs
  constructor
  · intro a ha
    rcases List.getElem_of_mem ha with ⟨i, hi, hieq⟩
    have hi' : i < k := lt_of_lt_of_le hi (by simp [List.length_take])
    have hil : i < l'.length := lt_trans hi' hk
    subst hkeq
    subst hieq
    have h1 : (l'.take k)[i] = l'[i] := List.getElem_take l'
    rw [h1]
    exact hpg i k hil hk hi'
  · intro b hb
    rcases List.getElem_of_mem hb with ⟨j, hj, hjeq⟩
    have hjl : k + 1 + j < l'.length := by
      have := List.length_drop (k + 1) l'
      omega
    subst hkeq
    subst hjeq
    have h1 : (l'.drop (k + 1))[j] = l'[k + 1 + j] := List.getElem_drop l'
    rw [h1]
    exact hpg k (k + 1 + j) hk hjl (by omega)

/-- The sort oracle satisfies the `kth_by` contract at every rank. -/
theorem sortPartit_kthBy (pos : List Bool) (l : List (TaggedItem ℤ T)) (k : ℕ) :
    KthBy (fun a b : ℤ => a ≤ b) k l (sortPartit pos l k) :=
  pairwise_kthBy (sortTI_perm l) (sortTI_pairwise l) k

theorem set_three_two (i : ℕ) : ([2, 2, 2] : List ℕ).set i 2 = [2, 2, 2] := by
  rcases i with _ | _ | _ | i <;> simp [List.set]

theorem lswap_three_two (i j : ℕ) : lswap ([2, 2, 2] : List ℕ) i j = [2, 2, 2] := by
  unfold lswap
  cases hi : ([2, 2, 2] : List ℕ).get? i with
  | none => rfl
  | some a =>
    cases hj : ([2, 2, 2] : List ℕ).get? j with
    | none => rfl
    | some b =>
      have ha : a = 2 := by have := List.get?_mem hi; simpa using this
      have hb : b = 2 := by have := List.get?_mem hj; simpa using this
      subst ha; subst hb
      simp only [set_three_two]

theorem scanUp_three_two : scanUp natLe ([2, 2, 2] : List ℕ) 2 1 = some 1 := by
  rw [scanUp]
  simp [natLe]

theorem scanDown_three_two : scanDown natLe ([2, 2, 2] : List ℕ) 2 2 = some 2 := by
  simp [scanDown, natLe]

/-- On `[2,2,2]` the Hoare partition loop swaps the two pivot-equal elements at
positions 1 and 2 forever: the scans stop immediately on pivot ties and the
pointers never advance past them, so the state repeats. -/
theorem partitionLoop_three_two (fuel : ℕ) :
    partitionLoop natLe fuel ([2, 2, 2] : List ℕ) 1 2 = none := by
  induction fuel with
  | zero => rfl
  | succ fuel ih =>
    rw [partitionLoop]
    simp only [List.get?, scanUp_three_two, scanDown_three_two, lswap_three_two]
    simpa using ih

/-- Every entry `within_radius` collects beyond the accumulator was pushed under a
comparison `d_center < radius` that really held between two non-NaN values: an entry
with an incomparable (NaN) distance is silently dropped — the operation returns
normally rather than failing. -/
theorem withinRadius_float_entries (dist : T → T → Option ℤ) (q : T) (r : Option ℤ)
    (t : VPNode (Option ℤ) T) (acc : List (Option ℤ × T)) :
    ∀ x ∈ t.withinRadius floatOps dist q r acc,
      x ∈ acc ∨ ∃ d rv, x.1 = some d ∧ r = some rv ∧ d < rv := by
  induction t generalizing acc with
  | leaf c =>
    intro x hx
    simp only [VPNode.withinRadius] at hx
    by_cases h : floatOps.lt (dist q c) r = true
    · rw [if_pos h] at hx
      rcases List.mem_append.mp hx with hx | hx
      · exact Or.inl hx
      · refine Or.inr ?_
        simp only [List.mem_singleton] at hx
        subst hx
        revert h
        simp only [floatOps]
        cases dist q c <;> cases r <;> simp
    · rw [if_neg h] at hx
      exact Or.inl hx
  | node1 c mu inner ih =>
    intro x hx
    simp only [VPNode.withinRadius] at hx
    have hstep : ∀ v1, x ∈ (if floatOps.gt r (floatOps.sub (dist q c) mu)
        then inner.withinRadius floatOps dist q r v1 else v1) →
        x ∈ v1 ∨ ∃ d rv, x.1 = some d ∧ r = some rv ∧ d < rv := by
      intro v1 hmem
      split at hmem
      · exact ih v1 x hmem
      · exact Or.inl hmem
    rcases hstep _ hx with hx1 | hx1
    · by_cases h : floatOps.lt (dist q c) r = true
      · rw [if_pos h] at hx1
        rcases List.mem_append.mp hx1 with hx1 | hx1
        · exact Or.inl hx1
        · refine Or.inr ?_
          simp only [List.mem_singleton] at hx1
          subst hx1
          revert h
          simp only [floatOps]
          cases dist q c <;> cases r <;> simp
      · rw [if_neg h] at hx1
        exact Or.inl hx1
    · exact Or.inr hx1
  | node2 c mu inner outer ihi iho =>
    intro x hx
    simp only [VPNode.withinRadius] at hx
    have hpush : ∀ hx1 : x ∈ (if floatOps.lt (dist q c) r = true
        then acc ++ [(dist q c, c)] else acc),
        x ∈ acc ∨ ∃ d rv, x.1 = some d ∧ r = some rv ∧ d < rv := by
      intro hx1
      split at hx1
      · rcases List.mem_append.mp hx1 with hx1 | hx1
        · exact Or.inl hx1
        · refine Or.inr ?_
          simp only [List.mem_singleton] at hx1
          subst hx1
          rename_i h
          revert h
          simp only [floatOps]
          cases dist q c <;> cases r <;> simp
      · exact Or.inl hx1
    split at hx
    · -- outer first, then inner
      have h2 : ∀ v2, x ∈ (if floatOps.gt r (floatOps.sub (dist q c) mu)
          then inner.withinRadius floatOps dist q r v2 else v2) →
          x ∈ v2 ∨ ∃ d rv, x.1 = some d ∧ r = some rv ∧ d < rv := by
        intro v2 hmem
        split at hmem
        · exact ihi v2 x hmem
        · exact Or.inl hmem
      rcases h2 _ hx with hx2 | hx2
      · have h3 : ∀ v1, x ∈ (if floatOps.gt r (floatOps.sub mu (dist q c))
            then outer.withinRadius floatOps dist q r v1 else v1) →
            x ∈ v1 ∨ ∃ d rv, x.1 = some d ∧ r = some rv ∧ d < rv := by
          intro v1 hmem
          split at hmem
          · exact iho v1 x hmem
          · exact Or.inl hmem
        rcases h3 _ hx2 with hx3 | hx3
        · exact hpush hx3
        · exact Or.inr hx3
      · exact Or.inr hx2
    · -- inner first, then outer
      have h2 : ∀ v2, x ∈ (if floatOps.gt r (floatOps.sub mu (dist q c))
          then outer.withinRadius floatOps dist q r v2 else v2) →
          x ∈ v2 ∨ ∃ d rv, x.1 = some d ∧ r = some rv ∧ d < rv := by
        intro v2 hmem
        split at hmem
        · exact iho v2 x hmem
        · exact Or.inl hmem
      rcases h2 _ hx with hx2 | hx2
      · have h3 : ∀ v1, x ∈ (if floatOps.gt r (floatOps.sub (dist q c) mu)
            then inner.withinRadius floatOps dist q r v1 else v1) →
            x ∈ v1 ∨ ∃ d rv, x.1 = some d ∧ r = some rv ∧ d < rv := by
          intro v1 hmem
          split at hmem
          · exact ihi v1 x hmem
          · exact Or.inl hmem
        rcases h3 _ hx2 with hx3 | hx3
        · exact hpush hx3
        · exact Or.inr hx3
      · exact Or.inr hx2

/-! ## Construction invariants -/

/-- `swap_remove` removes exactly the element at the given index: prepending the
removed element back gives a permutation of the original vector. -/
theorem swapRemoveAt_perm {l : List α} {i : ℕ} {x : α} (h : l.get? i = some x) :
    (x :: swapRemoveAt l i).Perm l := by
  have hne : l ≠ [] := by rintro rfl; simp [List.get?] at h
  have hi : i < l.length := by
    by_contra hge
    rw [List.get?_eq_none.mpr (le_of_not_lt hge)] at h
    exact absurd h (by simp)
  obtain ⟨ys, z, rfl⟩ : ∃ ys z, l = ys ++ [z] := by
    rcases List.eq_nil_or_concat l with rfl | ⟨ys, z, hz⟩
    · exact absurd rfl hne
    · exact ⟨ys, z, by simpa using hz⟩
  unfold swapRemoveAt
  rw [List.getLast?_concat]
  dsimp only
  rcases lt_or_ge i ys.length with hlt | hge
  · rw [List.set_append_left i z hlt, List.dropLast_concat]
    have hx : ys.get? i = some x := by rw [List.get?_append hlt] at h; exact h
    have hxe : ys[i] = x := by
      rw [List.get?_eq_getElem?] at hx
      exact (List.getElem?_eq_some.mp hx).choose_spec
    have hys : ys = ys.take i ++ x :: ys.drop (i + 1) := by
      conv_lhs => rw [← List.take_append_drop i ys, List.drop_eq_getElem_cons hlt, hxe]
    have hsetys : ys.set i z = ys.take i ++ z :: ys.drop (i + 1) :=
      List.set_eq_take_cons_drop z hlt
    rw [hsetys]
    have p1 : (x :: (ys.take i ++ z :: ys.drop (i + 1))).Perm
        (ys.take i ++ x :: z :: ys.drop (i + 1)) := List.perm_middle.symm
    have p2 : (ys.take i ++ x :: z :: ys.drop (i + 1)).Perm
        (ys.take i ++ x :: (ys.drop (i + 1) ++ [z])) :=
      List.Perm.append_left _ (List.Perm.cons _ (List.perm_append_singleton z _).symm)
    have p3 : ys.take i ++ x :: (ys.drop (i + 1) ++ [z])
        = (ys.take i ++ x :: ys.drop (i + 1)) ++ [z] := by simp
    refine p1.trans (p2.trans ?_)
    rw [p3, ← hys]
  · have hieq : i = ys.length := by simp at hi; omega
    subst hieq
    have hz : x = z := by
      rw [List.get?_concat_length] at h
      exact (Option.some_inj.mp h).symm
    subst hz
    rw [List.set_append_right _ _ le_rfl]
    simp only [Nat.sub_self, List.set]
    rw [List.dropLast_concat]
    exact (List.perm_append_singleton x ys).symm

theorem applyPartit_eq (partit : List Bool → List (TaggedItem F T) → ℕ → List (TaggedItem F T))
    (pos : List Bool) (l : List (TaggedItem F T)) (k : ℕ)
    (h : (partit pos l k).length = l.length) :
    applyPartit partit pos l k = partit pos l k := by
  unfold applyPartit
  rw [if_pos h]

/-- What the partition step guarantees when the `kth_by` oracle honours its
contract: the two halves are a permutation of the retagged working set, their
lengths are `ceil(n/2)` and `floor(n/2)`, and the last element of the left half
bounds the left half from above and the right half from below. -/
theorem splitItems_spec (dist : T → T → ℤ)
    (partit : List Bool → List (TaggedItem ℤ T) → ℕ → List (TaggedItem ℤ T))
    (pos : List Bool) (vp : TaggedItem ℤ T) (rest : List (TaggedItem ℤ T))
    (hp : ∀ pos l k, k < l.length → KthBy (fun a b : ℤ => a ≤ b) k l (partit pos l k))
    (hrest : rest ≠ []) :
    ((splitItems dist partit pos vp rest).1 ++ (splitItems dist partit pos vp rest).2).Perm
        (rest.map fun ti => ⟨ti.item, dist ti.item vp.item⟩) ∧
      (splitItems dist partit pos vp rest).1.length = (rest.length + 1) / 2 ∧
      (splitItems dist partit pos vp rest).2.length = rest.length / 2 ∧
      ∃ lastTi, (splitItems dist partit pos vp rest).1.getLast? = some lastTi ∧
        (∀ ti ∈ (splitItems dist partit pos vp rest).1, ti.dist ≤ lastTi.dist) ∧
        ∀ ti ∈ (splitItems dist partit pos vp rest).2, lastTi.dist ≤ ti.dist := by
  have hn : 0 < rest.length := List.length_pos.mpr hrest
  simp only [splitItems, List.length_map]
  by_cases h1 : 1 < rest.length
  · rw [if_pos h1]
    set tagged := rest.map fun ti => (⟨ti.item, dist ti.item vp.item⟩ : TaggedItem ℤ T)
      with htagged
    have htlen : tagged.length = rest.length := by rw [htagged, List.length_map]
    set k := (rest.length - 1) / 2 with hk
    have hkk : k < tagged.length := by omega
    have kth := hp pos tagged k (by omega)
    have hplen : (partit pos tagged k).length = tagged.length := kth.1.length_eq
    rw [applyPartit_eq partit pos tagged k hplen]
    set arr := partit pos tagged k with harr
    have halen : arr.length = rest.length := by rw [hplen, htlen]
    have hperm : arr.Perm tagged := kth.1
    have hk1 : (rest.length + 1) / 2 = k + 1 := by omega
    -- the pivot
    have hkarr : k < arr.length := by omega
    have hpiv : arr.get? k = some arr[k] := by
      rw [List.get?_eq_getElem?]
      exact List.getElem?_eq_some.mpr ⟨hkarr, rfl⟩
    rcases kth.2 arr[k] hpiv with ⟨htake, hdrop⟩
    have htakeS : arr.take (k + 1) = arr.take k ++ [arr[k]] := by
      rw [List.take_succ]
      congr 1
      rw [List.getElem?_eq_some.mpr ⟨hkarr, rfl⟩]
      rfl
    refine ⟨?_, ?_, ?_, arr[k], ?_, ?_, ?_⟩
    · rw [List.take_append_drop]
      exact hperm
    · rw [List.length_take]
      omega
    · rw [List.length_drop]
      omega
    · rw [hk1, htakeS, List.getLast?_concat]
    · intro ti hti
      rw [hk1, htakeS] at hti
      rcases List.mem_append.mp hti with hti | hti
      · exact htake ti hti
      · rw [List.mem_singleton.mp hti]
    · intro ti hti
      rw [show (rest.length + 1) / 2 = k + 1 from by omega] at hti
      exact hdrop ti hti
  · -- exactly one remaining point: no kth_by call, left is that point, right empty
    have hone : rest.length = 1 := by omega
    rw [if_neg (by omega)]
    rcases List.length_eq_one.mp (by rw [List.length_map]; exact hone :
      (rest.map fun ti => (⟨ti.item, dist ti.item vp.item⟩ : TaggedItem ℤ T)).length = 1)
      with ⟨x, hx⟩
    rw [hx, hone]
    exact ⟨by simp, by simp, by simp, x, by simp, by simp, by simp⟩

/-- Master soundness of `VPNode::new` (any oracles, the `kth_by` one honouring its
contract): the built tree's centers are a permutation of the input items, and the
structural invariants of `BuildInv` hold at every node. -/
theorem new_builds (dist : T → T → ℤ)
    (seldraw : List Bool → List (TaggedItem ℤ T) → ℕ)
    (partit : List Bool → List (TaggedItem ℤ T) → ℕ → List (TaggedItem ℤ T))
    (hp : ∀ pos l k, k < l.length → KthBy (fun a b : ℤ => a ≤ b) k l (partit pos l k)) :
    ∀ (N : ℕ) (l : List (TaggedItem ℤ T)), l.length ≤ N →
      ∀ (pos : List Bool) (t : VPNode ℤ T),
        VPNode.new intOps dist seldraw partit pos l = some t →
        t.toList.Perm (l.map TaggedItem.item) ∧ t.BuildInv dist := by
  intro N
  induction N with
  | zero =>
    intro l hl pos t ht
    have hnil : l = [] := List.length_eq_zero.mp (Nat.le_zero.mp hl)
    subst hnil
    rw [VPNode.new] at ht
    exact absurd ht (by simp)
  | succ N ih =>
    intro l hl pos t ht
    cases l with
    | nil =>
      rw [VPNode.new] at ht
      exact absurd ht (by simp)
    | cons a l1 =>
      cases l1 with
      | nil =>
        rw [VPNode.new] at ht
        have hte : VPNode.leaf a.item = t := Option.some_inj.mp ht
        subst hte
        exact ⟨by simp [VPNode.toList], by simp [VPNode.BuildInv]⟩
      | cons b tl =>
        have hl2 : tl.length + 2 ≤ N + 1 := by simpa using hl
        rw [VPNode.new] at ht
        dsimp only at ht
        set si := selectVantagePoint intOps dist (a :: b :: tl)
          (seldraw pos (a :: b :: tl)) with hsi
        cases hvp : (a :: b :: tl).get? si with
        | none => rw [hvp] at ht; exact absurd ht (by simp)
        | some vp =>
          rw [hvp] at ht
          dsimp only at ht
          set L := (splitItems dist partit pos vp (swapRemoveAt (a :: b :: tl) si)).1
            with hLdef
          set R := (splitItems dist partit pos vp (swapRemoveAt (a :: b :: tl) si)).2
            with hRdef
          have hrlen : (swapRemoveAt (a :: b :: tl) si).length = tl.length + 1 := by
            rw [swapRemoveAt_length _ _ (by simp)]; simp
          have hrne : swapRemoveAt (a :: b :: tl) si ≠ [] := by
            intro hcon; rw [hcon] at hrlen; simp at hrlen
          obtain ⟨hLR, hLlen, hRlen, lastTi0, hlast0, hLbound, hRbound⟩ :=
            splitItems_spec dist partit pos vp (swapRemoveAt (a :: b :: tl) si) hp hrne
          simp only [← hLdef, ← hRdef] at hLR hLlen hRlen hlast0 hLbound hRbound
          rw [hrlen] at hLlen hRlen
          have hvperm : (vp :: swapRemoveAt (a :: b :: tl) si).Perm (a :: b :: tl) :=
            swapRemoveAt_perm hvp
          have htag : ∀ ti ∈ L ++ R, ti.dist = dist ti.item vp.item := by
            intro ti hti
            rcases List.mem_map.mp (hLR.mem_iff.mp hti) with ⟨s, _, rfl⟩
            rfl
          have hmapLR : ((L ++ R).map TaggedItem.item).Perm
              ((swapRemoveAt (a :: b :: tl) si).map TaggedItem.item) := by
            have h := hLR.map TaggedItem.item
            simpa [List.map_map] using h
          have hpermAll : (vp.item :: (L ++ R).map TaggedItem.item).Perm
              ((a :: b :: tl).map TaggedItem.item) :=
            ((hmapLR.cons vp.item).trans (hvperm.map TaggedItem.item))
          cases hlast : L.getLast? with
          | none => rw [hlast0] at hlast; exact absurd hlast (by simp)
          | some lastTi =>
            have hlastEq : lastTi0 = lastTi := by
              rw [hlast0] at hlast; exact Option.some_inj.mp hlast
            subst hlastEq
            rw [hlast] at ht
            dsimp only at ht
            cases hinner : VPNode.new intOps dist seldraw partit (false :: pos) L with
            | none => rw [hinner] at ht; exact absurd ht (by simp)
            | some inner =>
              rw [hinner] at ht
              dsimp only at ht
              have hIH := ih L (by omega) (false :: pos) inner hinner
              have hinnerBound : ∀ p ∈ inner.toList, dist p vp.item ≤ lastTi0.dist := by
                intro p hp'
                rcases List.mem_map.mp (hIH.1.mem_iff.mp hp') with ⟨ti, htiL, rfl⟩
                rw [← htag ti (List.mem_append_left R htiL)]
                exact hLbound ti htiL
              have hinnerAttained : ∃ p ∈ inner.toList, dist p vp.item = lastTi0.dist := by
                refine ⟨lastTi0.item, ?_, ?_⟩
                · exact hIH.1.mem_iff.mpr
                    (List.mem_map_of_mem TaggedItem.item (List.mem_of_mem_getLast? hlast))
                · rw [← htag lastTi0
                    (List.mem_append_left R (List.mem_of_mem_getLast? hlast))]
              have hinnerLen : inner.toList.length = (tl.length + 2) / 2 := by
                rw [hIH.1.length_eq, List.length_map, hLlen]
              by_cases hre : R.isEmpty
              · rw [if_pos hre] at ht
                have hte : VPNode.node1 vp.item lastTi0.dist inner = t := Option.some_inj.mp ht
                subst hte
                have hRnil : R = [] := List.isEmpty_iff.mp hre
                have hn1 : tl.length + 1 = 1 := by
                  have := hRlen; rw [hRnil] at this; simp at this; omega
                constructor
                · show (vp.item :: inner.toList).Perm _
                  refine List.Perm.trans ?_ hpermAll
                  refine List.Perm.cons vp.item ?_
                  rw [hRnil, List.append_nil]
                  exact hIH.1
                · show (∀ p ∈ inner.toList, dist p vp.item ≤ lastTi0.dist) ∧ _
                  refine ⟨hinnerBound, hinnerAttained, ?_, hIH.2⟩
                  rw [hinnerLen]; omega
              · rw [if_neg hre] at ht
                cases houter : VPNode.new intOps dist seldraw partit (true :: pos) R with
                | none => rw [houter] at ht; exact absurd ht (by simp)
                | some outer =>
                  rw [houter] at ht
                  dsimp only at ht
                  have hte : VPNode.node2 vp.item lastTi0.dist inner outer = t :=
                    Option.some_inj.mp ht
                  subst hte
                  have hOH := ih R (by omega) (true :: pos) outer houter
                  have houterBound : ∀ p ∈ outer.toList, lastTi0.dist ≤ dist p vp.item := by
                    intro p hp'
                    rcases List.mem_map.mp (hOH.1.mem_iff.mp hp') with ⟨ti, htiR, rfl⟩
                    rw [← htag ti (List.mem_append_right L htiR)]
                    exact hRbound ti htiR
                  have houterLen : outer.toList.length = (tl.length + 1) / 2 := by
                    rw [hOH.1.length_eq, List.length_map, hRlen]
                  constructor
                  · show (vp.item :: (inner.toList ++ outer.toList)).Perm _
                    refine List.Perm.trans ?_ hpermAll
                    refine List.Perm.cons vp.item ?_
                    rw [List.map_append]
                    exact hIH.1.append hOH.1
                  · show (∀ p ∈ inner.toList, dist p vp.item ≤ lastTi0.dist) ∧ _
                    refine ⟨hinnerBound, hinnerAttained, houterBound, ?_, ?_, hIH.2, hOH.2⟩
                    · rw [hinnerLen, houterLen]; omega
                    · rw [hinnerLen, houterLen]; omega

theorem filtmap_nil (dist : T → T → ℤ) (q : T) (r : ℤ) : filtmap dist q r [] = [] := rfl

theorem filtmap_append (dist : T → T → ℤ) (q : T) (r : ℤ) (l1 l2 : List T) :
    filtmap dist q r (l1 ++ l2) = filtmap dist q r l1 ++ filtmap dist q r l2 := by
  simp [filtmap]

theorem filtmap_cons (dist : T → T → ℤ) (q : T) (r : ℤ) (x : T) (l : List T) :
    filtmap dist q r (x :: l)
      = (if dist q x < r then [(dist q x, x)] else []) ++ filtmap dist q r l := by
  by_cases h : dist q x < r <;> simp [filtmap, h]

theorem filtmap_eq_nil (dist : T → T → ℤ) (q : T) (r : ℤ) (l : List T)
    (h : ∀ p ∈ l, ¬dist q p < r) : filtmap dist q r l = [] := by
  simp only [filtmap, List.map_eq_nil, List.filter_eq_nil]
  intro p hp
  simpa using h p hp

/-- Correctness of the node-level radius query on any tree satisfying the
construction invariants, for a metric obeying symmetry and the triangle
inequality: the traversal appends to the accumulator exactly the entries of a
complete scan, up to order.  The pruned subtrees contain no matching point: an
inner child is skipped only when `radius ≤ d - mu`, and every inner point `p` has
`dist q p ≥ d - dist c p ≥ d - mu ≥ radius` by the triangle inequality; symmetric
for the outer child with `radius ≤ mu - d`. -/
theorem withinRadius_perm (dist : T → T → ℤ)
    (hsymm : ∀ x y, dist x y = dist y x)
    (htri : ∀ x y z, dist x z ≤ dist x y + dist y z)
    (q : T) (r : ℤ) :
    ∀ t : VPNode ℤ T, t.BuildInv dist → ∀ acc : List (ℤ × T),
      (t.withinRadius intOps dist q r acc).Perm (acc ++ filtmap dist q r t.toList) := by
  intro t
  induction t with
  | leaf c =>
    intro _ acc
    simp only [VPNode.withinRadius, VPNode.toList, filtmap_cons, filtmap_nil]
    by_cases h : dist q c < r
    · rw [if_pos (by simpa [intOps] using h), if_pos h]
      simp
    · rw [if_neg (by simpa [intOps] using h), if_neg h]
      simp
  | node1 c mu inner ih =>
    intro hinv acc
    obtain ⟨hin, _, _, hinvI⟩ := hinv
    simp only [VPNode.withinRadius, VPNode.toList, filtmap_cons]
    have hpush : (if intOps.lt (dist q c) r = true then acc ++ [(dist q c, c)] else acc)
        = acc ++ (if dist q c < r then [(dist q c, c)] else []) := by
      by_cases h : dist q c < r
      · rw [if_pos (by simpa [intOps] using h), if_pos h]
      · rw [if_neg (by simpa [intOps] using h), if_neg h]
        simp
    by_cases hvis : intOps.gt r (intOps.sub (dist q c) mu) = true
    · rw [if_pos hvis]
      refine (ih hinvI _).trans ?_
      rw [hpush]
      simp [List.append_assoc]
    · rw [if_neg hvis]
      have hskip : filtmap dist q r inner.toList = [] := by
        refine filtmap_eq_nil dist q r _ ?_
        intro p hp
        have hmu : dist p c ≤ mu := hin p hp
        have hge : r ≤ dist q c - mu := by
          simp only [intOps, decide_eq_true_eq] at hvis
          omega
        have h1 : dist q c ≤ dist q p + dist p c := htri q p c
        omega
      rw [hpush, hskip]
      simp
  | node2 c mu inner outer ihi iho =>
    intro hinv acc
    obtain ⟨hin, _, hout, _, _, hinvI, hinvO⟩ := hinv
    simp only [VPNode.withinRadius, VPNode.toList, filtmap_cons, filtmap_append]
    have hpush : (if intOps.lt (dist q c) r = true then acc ++ [(dist q c, c)] else acc)
        = acc ++ (if dist q c < r then [(dist q c, c)] else []) := by
      by_cases h : dist q c < r
      · rw [if_pos (by simpa [intOps] using h), if_pos h]
      · rw [if_neg (by simpa [intOps] using h), if_neg h]
        simp
    have hinnerStep : ∀ v : List (ℤ × T),
        ((if intOps.gt r (intOps.sub (dist q c) mu) = true
          then inner.withinRadius intOps dist q r v else v)).Perm
          (v ++ filtmap dist q r inner.toList) := by
      intro v
      by_cases hvis : intOps.gt r (intOps.sub (dist q c) mu) = true
      · rw [if_pos hvis]
        exact ihi hinvI v
      · rw [if_neg hvis]
        have hskip : filtmap dist q r inner.toList = [] := by
          refine filtmap_eq_nil dist q r _ ?_
          intro p hp
          have hmu : dist p c ≤ mu := hin p hp
          have hge : r ≤ dist q c - mu := by
            simp only [intOps, decide_eq_true_eq] at hvis
            omega
          have h1 : dist q c ≤ dist q p + dist p c := htri q p c
          omega
        rw [hskip]
        simp
    have houterStep : ∀ v : List (ℤ × T),
        ((if intOps.gt r (intOps.sub mu (dist q c)) = true
          then outer.withinRadius intOps dist q r v else v)).Perm
          (v ++ filtmap dist q r outer.toList) := by
      intro v
      by_cases hvis : intOps.gt r (intOps.sub mu (dist q c)) = true
      · rw [if_pos hvis]
        exact iho hinvO v
      · rw [if_neg hvis]
        have hskip : filtmap dist q r outer.toList = [] := by
          refine filtmap_eq_nil dist q r _ ?_
          intro p hp
          have hmu : mu ≤ dist p c := hout p hp
          have hge : r ≤ mu - dist q c := by
            simp only [intOps, decide_eq_true_eq] at hvis
            omega
          have h1 : dist p c ≤ dist p q + dist q c := htri p q c
          have h2 : dist q p = dist p q := hsymm q p
          omega
        rw [hskip]
        simp
    by_cases hside : intOps.gt (dist q c) mu = true
    · -- outer first, then inner
      rw [if_pos hside]
      have h2 := houterStep (if intOps.lt (dist q c) r = true then acc ++ [(dist q c, c)] else acc)
      -- the visit of the inner child starts from the outer child's result
      have hi' : ((if intOps.gt r (intOps.sub (dist q c) mu) = true
          then inner.withinRadius intOps dist q r
            ((if intOps.gt r (intOps.sub mu (dist q c)) = true
              then outer.withinRadius intOps dist q r
                (if intOps.lt (dist q c) r = true then acc ++ [(dist q c, c)] else acc)
              else (if intOps.lt (dist q c) r = true then acc ++ [(dist q c, c)] else acc)))
          else ((if intOps.gt r (intOps.sub mu (dist q c)) = true
              then outer.withinRadius intOps dist q r
                (if intOps.lt (dist q c) r = true then acc ++ [(dist q c, c)] else acc)
              else (if intOps.lt (dist q c) r = true then acc ++ [(dist q c, c)] else acc))))).Perm
          (((if intOps.gt r (intOps.sub mu (dist q c)) = true
              then outer.withinRadius intOps dist q r
                (if intOps.lt (dist q c) r = true then acc ++ [(dist q c, c)] else acc)
              else (if intOps.lt (dist q c) r = true then acc ++ [(dist q c, c)] else acc)))
            ++ filtmap dist q r inner.toList) := by
        by_cases hvis : intOps.gt r (intOps.sub (dist q c) mu) = true
        · rw [if_pos hvis]
          exact ihi hinvI _
        · rw [if_neg hvis]
          have hskip : filtmap dist q r inner.toList = [] := by
            refine filtmap_eq_nil dist q r _ ?_
            intro p hp
            have hmu : dist p c ≤ mu := hin p hp
            have hge : r ≤ dist q c - mu := by
              simp only [intOps, decide_eq_true_eq] at hvis
              omega
            have h1 : dist q c ≤ dist q p + dist p c := htri q p c
            omega
          rw [hskip]
          simp
      refine hi'.trans ?_
      refine ((h2.append_right (filtmap dist q r inner.toList)).trans ?_)
      rw [hpush]
      simp only [List.append_assoc]
      exact List.Perm.append_left _ (List.Perm.append_left _ List.perm_append_comm)
    · -- inner first, then outer
      rw [if_neg hside]
      have h2 := hinnerStep (if intOps.lt (dist q c) r = true then acc ++ [(dist q c, c)] else acc)
      have ho' := houterStep ((if intOps.gt r (intOps.sub (dist q c) mu) = true
          then inner.withinRadius intOps dist q r
            (if intOps.lt (dist q c) r = true then acc ++ [(dist q c, c)] else acc)
          else (if intOps.lt (dist q c) r = true then acc ++ [(dist q c, c)] else acc)))
      refine ho'.trans ?_
      refine ((h2.append_right (filtmap dist q r outer.toList)).trans ?_)
      rw [hpush]
      simp only [List.append_assoc]
      exact List.Perm.refl _

/-! ## Totality of construction -/

/-- The vantage-point selector always returns an in-range index on a non-empty
working set: the fold's accumulator starts at the (in-range) random index and is
only ever replaced by an index drawn from `enumerate`. -/
theorem selectVantagePoint_lt (ops : ScalarOps F) (dist : T → T → F)
    (items : List (TaggedItem F T)) (draw : ℕ) (h : items ≠ []) :
    selectVantagePoint ops dist items draw < items.length := by
  unfold selectVantagePoint
  dsimp only
  have hlen : 0 < items.length := List.length_pos.mpr h
  cases hx : items.get? (draw % items.length) with
  | none => exact Nat.mod_lt _ hlen
  | some randomItem =>
    have key : ∀ (es : List (ℕ × TaggedItem F T)) (init : F × ℕ),
        (∀ p ∈ es, p.1 < items.length) → init.2 < items.length →
        (es.foldl (fun acc p =>
          let d := dist randomItem.item p.2.item
          if ops.gt d acc.1 then (d, p.1) else acc) init).2 < items.length := by
      intro es
      induction es with
      | nil => intro init _ h2; exact h2
      | cons e es ihe =>
        intro init hmem h2
        simp only [List.foldl]
        refine ihe _ (fun p hp => hmem p (List.mem_cons_of_mem e hp)) ?_
        dsimp only
        split
        · exact hmem e (List.mem_cons_self e es)
        · exact h2
    apply key
    · intro p hp; exact List.fst_lt_of_mem_enum hp
    · simpa using Nat.mod_lt draw hlen

/-- `VPNode::new` returns normally on every non-empty input, for any scalar
operations and any oracles: it is total because each recursive call works on a
strictly smaller list (the vantage point is removed, then the set is split). -/
theorem new_isSome (ops : ScalarOps F) (dist : T → T → F)
    (seldraw : List Bool → List (TaggedItem F T) → ℕ)
    (partit : List Bool → List (TaggedItem F T) → ℕ → List (TaggedItem F T)) :
    ∀ (N : ℕ) (l : List (TaggedItem F T)), l.length ≤ N → l ≠ [] →
      ∀ pos : List Bool, (VPNode.new ops dist seldraw partit pos l).isSome := by
  intro N
  induction N with
  | zero =>
    intro l hl hne
    exact absurd (List.length_eq_zero.mp (Nat.le_zero.mp hl)) hne
  | succ N ih =>
    intro l hl hne pos
    cases l with
    | nil => exact absurd rfl hne
    | cons a l1 =>
      cases l1 with
      | nil => rw [VPNode.new]; rfl
      | cons b tl =>
        have hl2 : tl.length + 2 ≤ N + 1 := by simpa using hl
        rw [VPNode.new]
        dsimp only
        set si := selectVantagePoint ops dist (a :: b :: tl)
          (seldraw pos (a :: b :: tl)) with hsi
        have hsilt : si < (a :: b :: tl).length :=
          selectVantagePoint_lt ops dist _ _ (by simp)
        cases hvp : (a :: b :: tl).get? si with
        | none =>
          exact absurd hvp (by simp only [ne_eq, List.get?_eq_none, not_le]; exact hsilt)
        | some vp =>
          dsimp only
          set L := (splitItems dist partit pos vp (swapRemoveAt (a :: b :: tl) si)).1
            with hLdef
          set R := (splitItems dist partit pos vp (swapRemoveAt (a :: b :: tl) si)).2
            with hRdef
          have hrlen : (swapRemoveAt (a :: b :: tl) si).length = tl.length + 1 := by
            rw [swapRemoveAt_length _ _ (by simp)]; simp
          have hLlen : L.length = (tl.length + 2) / 2 := by
            rw [hLdef]
            simp only [splitItems]
            split
            · rw [List.length_take, applyPartit_length]
              simp only [List.length_map, hrlen]
              omega
            · rename_i hn1
              simp only [List.length_map, hrlen] at hn1
              rw [List.length_take]
              simp only [List.length_map, hrlen]
              omega
          have hRlen : R.length = (tl.length + 1) / 2 := by
            rw [hRdef]
            simp only [splitItems]
            split
            · rw [List.length_drop, applyPartit_length]
              simp only [List.length_map, hrlen]
              omega
            · rename_i hn1
              simp only [List.length_map, hrlen] at hn1
              rw [List.length_drop]
              simp only [List.length_map, hrlen]
              omega
          have hLne : L ≠ [] := by
            intro hcon
            rw [hcon] at hLlen
            simp only [List.length_nil] at hLlen
            omega
          cases hlast : L.getLast? with
          | none => exact absurd (List.getLast?_eq_none_iff.mp hlast) hLne
          | some lastTi =>
            dsimp only
            have hinner := ih L (by omega) hLne (false :: pos)
            cases hinner2 : VPNode.new ops dist seldraw partit (false :: pos) L with
            | none => rw [hinner2] at hinner; exact absurd hinner (by simp)
            | some inner =>
              dsimp only
              by_cases hre : R.isEmpty
              · rw [if_pos hre]; rfl
              · rw [if_neg hre]
                have hRne : R ≠ [] := by
                  intro hcon; rw [hcon] at hre; simp at hre
                have houter := ih R (by omega) hRne (true :: pos)
                cases houter2 : VPNode.new ops dist seldraw partit (true :: pos) R with
                | none => rw [houter2] at houter; exact absurd houter (by simp)
                | some outer => rfl

theorem BuildInv.ringInv {dist : T → T → ℤ} :
    ∀ {t : VPNode ℤ T}, t.BuildInv dist → t.RingInv dist := by
  intro t
  induction t with
  | leaf c => intro _; trivial
  | node1 c mu inner ih =>
    intro h
    obtain ⟨hin, _, _, hI⟩ := h
    exact ⟨hin, ih hI⟩
  | node2 c mu inner outer ihi iho =>
    intro h
    obtain ⟨hin, _, hout, _, _, hI, hO⟩ := h
    exact ⟨hin, hout, ihi hI, iho hO⟩

theorem BuildInv.splitOk {dist : T → T → ℤ} :
    ∀ {t : VPNode ℤ T}, t.BuildInv dist → t.SplitOk dist := by
  intro t
  induction t with
  | leaf c => intro _; trivial
  | node1 c mu inner ih =>
    intro h
    obtain ⟨hin, hatt, hlen, hI⟩ := h
    exact ⟨hlen, hin, hatt, ih hI⟩
  | node2 c mu inner outer ihi iho =>
    intro h
    obtain ⟨hin, hatt, _, hlen1, hlen2, hI, hO⟩ := h
    refine ⟨hlen1, hlen2, List.length_pos.mpr (VPNode.toList_ne_nil outer),
      hin, hatt, ihi hI, iho hO⟩

theorem insertAsc_perm (ops : ScalarOps F) (x : F × T) (l : List (F × T)) :
    (insertAsc ops x l).Perm (x :: l) := by
  induction l with
  | nil => simp [insertAsc]
  | cons y ys ih =>
    by_cases h : ops.lt x.1 y.1
    · simp [insertAsc, h]
    · simp only [insertAsc, if_neg h]
      exact (ih.cons y).trans (List.Perm.swap x y ys)

theorem sortAsc_perm (ops : ScalarOps F) (l : List (F × T)) :
    (sortAsc ops l).Perm l := by
  induction l with
  | nil => simp [sortAsc]
  | cons x xs ih => exact (insertAsc_perm ops x (sortAsc ops xs)).trans (ih.cons x)

/-- Cracking `VPTree::new`: a successfully built tree's root is the node built from
the zero-tagged items. -/
theorem VPTree.new_root (ops : ScalarOps F) (dist : T → T → F)
    (seldraw : List Bool → List (TaggedItem F T) → ℕ)
    (partit : List Bool → List (TaggedItem F T) → ℕ → List (TaggedItem F T))
    (items : List T) (tr : VPTree F T)
    (htr : VPTree.new ops dist seldraw partit items = some tr) :
    VPNode.new ops dist seldraw partit [] (items.map fun x => ⟨x, ops.zero⟩)
      = some tr.root := by
  unfold VPTree.new at htr
  split at htr
  · rcases Option.map_eq_some'.mp htr with ⟨rt, hrt, hmk⟩
    rw [hrt, ← hmk]
  · exact absurd htr (by simp)

/-- Tagging with a zero scratch distance and projecting the item back is the
identity. -/
theorem map_item_map_tag (ops : ScalarOps F) (items : List T) :
    ((items.map fun x => (⟨x, ops.zero⟩ : TaggedItem F T)).map TaggedItem.item) = items := by
  induction items with
  | nil => rfl
  | cons x xs ih =>
    simp only [List.map_cons] at *
    rw [ih]

/-- Projecting the point back out of a distance-point pair is the identity. -/
theorem map_snd_pair (dist : T → T → ℤ) (q : T) (l : List T) :
    l.map ((fun x : ℤ × T => x.2) ∘ fun p => (dist q p, p)) = l := by
  induction l with
  | nil => rfl
  | cons x xs ih =>
    simp only [List.map_cons, Function.comp] at *
    rw [ih]

/-! ## Concrete builds used by the claims -/

theorem build_singleton :
    VPTree.new intOps absDist (fun _ _ => 0) sortPartit [0] = some ⟨.leaf 0⟩ := by
  simp only [VPTree.new]
  norm_num
  rw [VPNode.new]

theorem build_035 :
    VPTree.new intOps absDist (fun _ _ => 1) sortPartit [0, 3, 5]
      = some ⟨.node2 0 3 (.leaf 3) (.leaf 5)⟩ := by
  simp only [VPTree.new]
  norm_num
  rw [VPNode.new]
  simp only [selectVantagePoint, splitItems, applyPartit, swapRemoveAt, sortPartit,
    sortTI, insTI, absDist, intOps, List.enum, List.get?, List.getLast?, List.set,
    List.dropLast, List.map, List.foldl, List.length]
  norm_num
  rw [VPNode.new, VPNode.new]

theorem build_044 :
    VPTree.new intOps absDist (fun _ _ => 1) sortPartit [0, 4, 4]
      = some ⟨.node2 0 4 (.leaf 4) (.leaf 4)⟩ := by
  simp only [VPTree.new]
  norm_num
  rw [VPNode.new]
  simp only [selectVantagePoint, splitItems, applyPartit, swapRemoveAt, sortPartit,
    sortTI, insTI, absDist, intOps, List.enum, List.get?, List.getLast?, List.set,
    List.dropLast, List.map, List.foldl, List.length]
  norm_num
  rw [VPNode.new, VPNode.new]

/-! ## The claims -/

/-- C1: the claim that `nearest_neighbors(q, k, sorted)` returns the multiset of
the `k` smallest-distance items of a brute-force scan (up to exact ties) fails on
the code.  On the tree built from `[0, 3, 5]` with the absolute-difference metric
(vantage-point probe draw 1; the `kth_by` rearrangement used satisfies the
contract — last conjunct), the query `q = 1` with `k = 3` returns only `[0, 3]`:
two items, not the three of a brute-force scan, and in particular not a tie
difference.  The outer leaf `5` is pruned against the worst distance of a heap
that holds only 2 < k candidates (`d_max = 2 ≤ mu - d_center = 2`). -/
theorem claim_C1_knn_not_brute_force :
    VPTree.new intOps absDist (fun _ _ => 1) sortPartit [0, 3, 5]
        = some ⟨.node2 0 3 (.leaf 3) (.leaf 5)⟩ ∧
      VPTree.nearestNeighbors intOps absDist ⟨.node2 0 3 (.leaf 3) (.leaf 5)⟩ 1 3 true
        = some [0, 3] ∧
      ([0, 3] : List ℤ).length ≠ min 3 ([0, 3, 5] : List ℤ).length ∧
      KthBy (fun a b : ℤ => a ≤ b) 0 [⟨5, 5⟩, ⟨3, 3⟩]
        (sortPartit [] [⟨5, 5⟩, ⟨3, 3⟩] 0) := by
  exact ⟨build_035, by decide, by decide, sortPartit_kthBy [] [⟨5, 5⟩, ⟨3, 3⟩] 0⟩

/-- C2: for every tree built from `S` (the `kth_by` oracle honouring its
contract) under a metric satisfying symmetry and the triangle inequality, and for
every query `q`, radius `r` and `sorted` flag, `within_radius` returns exactly
the points of `S` at distance strictly less than `r` from `q`, as a multiset; a
point at distance exactly `r` is not returned (the comparison is strict). -/
theorem claim_C2_within_radius_exact (dist : T → T → ℤ)
    (seldraw : List Bool → List (TaggedItem ℤ T) → ℕ)
    (partit : List Bool → List (TaggedItem ℤ T) → ℕ → List (TaggedItem ℤ T))
    (hp : ∀ pos l k, k < l.length → KthBy (fun a b : ℤ => a ≤ b) k l (partit pos l k))
    (hsymm : ∀ x y, dist x y = dist y x)
    (htri : ∀ x y z, dist x z ≤ dist x y + dist y z)
    (items : List T) (tr : VPTree ℤ T)
    (htr : VPTree.new intOps dist seldraw partit items = some tr)
    (q : T) (r : ℤ) (sorted : Bool) :
    (VPTree.withinRadius intOps dist tr q r sorted).Perm
      (items.filter fun p => decide (dist q p < r)) := by
  have hroot := VPTree.new_root intOps dist seldraw partit items tr htr
  have hb := new_builds dist seldraw partit hp
    (items.map fun x => ⟨x, intOps.zero⟩).length _ le_rfl [] tr.root hroot
  have hq := withinRadius_perm dist hsymm htri q r tr.root hb.2 []
  have hitems : tr.root.toList.Perm items := by
    have h1 := hb.1
    rw [map_item_map_tag] at h1
    exact h1
  have helems : (tr.root.withinRadius intOps dist q r []).Perm
      (filtmap dist q r tr.root.toList) := by simpa using hq
  unfold VPTree.withinRadius
  have hsorted : ((if sorted then sortAsc intOps (tr.root.withinRadius intOps dist q r [])
      else tr.root.withinRadius intOps dist q r [])).Perm
      (filtmap dist q r tr.root.toList) := by
    split
    · exact (sortAsc_perm intOps _).trans helems
    · exact helems
  refine (hsorted.map _).trans ?_
  have hmap2 : (filtmap dist q r tr.root.toList).map (·.2)
      = tr.root.toList.filter fun p => decide (dist q p < r) := by
    unfold filtmap
    rw [List.map_map]
    exact map_snd_pair dist q _
  rw [hmap2]
  exact hitems.filter _

/-- Witness for C2 at the concrete build from `[0, 3, 5]`, query 1, radius 3,
sorted output: exactly the points at distance < 3 are returned. -/
theorem claim_C2_within_radius_exact_witness :
    (VPTree.withinRadius intOps absDist
      (VPTree.mk (VPNode.node2 (0 : ℤ) 3 (.leaf 3) (.leaf 5))) 1 3 true).Perm
      ([0, 3, 5].filter fun p => decide (absDist 1 p < 3)) :=
  claim_C2_within_radius_exact absDist (fun _ _ => 1) sortPartit
    (fun pos l k _ => sortPartit_kthBy pos l k)
    (fun x y => abs_sub_comm x y) (fun x y z => abs_sub_le x y z)
    [0, 3, 5] _ build_035 1 3 true

/-- C3: the claim that `nearest_neighbors(q, k, sorted)` returns normally with
exactly `min(k, |S|)` items for every `k ≥ 0` — in particular an empty sequence
for `k = 0` — fails on the code: with `k = 0` the very first insertion step
evaluates `heap.peek().unwrap()` on the still-empty heap (the heap is "full" at
capacity 0, so the push branch is not taken), which panics.  On the tree built
from the single point `[0]`, the query with `k = 0` panics instead of returning
`[]`. -/
theorem claim_C3_k_zero_panics :
    VPTree.new intOps absDist (fun _ _ => 0) sortPartit [0] = some ⟨.leaf 0⟩ ∧
      VPTree.nearestNeighbors intOps absDist ⟨.leaf 0⟩ 5 0 true = none :=
  ⟨build_singleton, by decide⟩

/-- C4, counterexample: the strict form of the ring invariant ("every outer point
is strictly farther than `mu`") fails on a constructed tree.  From `[0, 4, 4]`
(probe draw 1, `kth_by` contract satisfied — middle conjunct) construction picks
center 0 and splits the two remaining points, both at distance 4, into an inner
and an outer half: `mu = 4` and the outer leaf sits at distance exactly `mu`. -/
theorem claim_C4_counterexample :
    VPTree.new intOps absDist (fun _ _ => 1) sortPartit [0, 4, 4]
        = some ⟨.node2 0 4 (.leaf 4) (.leaf 4)⟩ ∧
      KthBy (fun a b : ℤ => a ≤ b) 0 [⟨4, 4⟩, ⟨4, 4⟩]
        (sortPartit [] [⟨4, 4⟩, ⟨4, 4⟩] 0) ∧
      ¬ VPNode.StrictRingInv absDist (.node2 0 4 (.leaf 4) (.leaf 4)) := by
  refine ⟨build_044, sortPartit_kthBy [] [⟨4, 4⟩, ⟨4, 4⟩] 0, ?_⟩
  · intro h
    obtain ⟨_, hout, _, _⟩ := h
    have := hout 4 (by simp [VPNode.toList])
    norm_num [absDist] at this

/-- C4 (amended): in every tree produced by construction (with the `kth_by`
oracle honouring its contract), every point in an inner subtree has distance at
most `mu` from the node's center and every point in an outer subtree has distance
at least `mu` — the outer bound is weak, not strict, because `kth_by` may leave
points at distance exactly `mu` on both sides of the split. -/
theorem claim_C4_ring_invariant (dist : T → T → ℤ)
    (seldraw : List Bool → List (TaggedItem ℤ T) → ℕ)
    (partit : List Bool → List (TaggedItem ℤ T) → ℕ → List (TaggedItem ℤ T))
    (hp : ∀ pos l k, k < l.length → KthBy (fun a b : ℤ => a ≤ b) k l (partit pos l k))
    (items : List T) (tr : VPTree ℤ T)
    (htr : VPTree.new intOps dist seldraw partit items = some tr) :
    tr.root.RingInv dist := by
  have hroot := VPTree.new_root intOps dist seldraw partit items tr htr
  have hb := new_builds dist seldraw partit hp
    (items.map fun x => ⟨x, intOps.zero⟩).length _ le_rfl [] tr.root hroot
  exact BuildInv.ringInv hb.2

/-- Witness for C4's amended theorem at the concrete build from `[0, 4, 4]`. -/
theorem claim_C4_ring_invariant_witness :
    (VPTree.mk (VPNode.node2 (0 : ℤ) 4 (.leaf 4) (.leaf 4))).root.RingInv absDist :=
  claim_C4_ring_invariant absDist (fun _ _ => 1) sortPartit
    (fun pos l k _ => sortPartit_kthBy pos l k) [0, 4, 4] _ build_044

/-- C5: the multiset of node centers of a constructed tree equals the input point
multiset — each input point becomes the center of exactly one node, none is
duplicated or dropped. -/
theorem claim_C5_centers_are_input (dist : T → T → ℤ)
    (seldraw : List Bool → List (TaggedItem ℤ T) → ℕ)
    (partit : List Bool → List (TaggedItem ℤ T) → ℕ → List (TaggedItem ℤ T))
    (hp : ∀ pos l k, k < l.length → KthBy (fun a b : ℤ => a ≤ b) k l (partit pos l k))
    (items : List T) (tr : VPTree ℤ T)
    (htr : VPTree.new intOps dist seldraw partit items = some tr) :
    tr.root.toList.Perm items := by
  have hroot := VPTree.new_root intOps dist seldraw partit items tr htr
  have hb := new_builds dist seldraw partit hp
    (items.map fun x => ⟨x, intOps.zero⟩).length _ le_rfl [] tr.root hroot
  have h1 := hb.1
  rw [map_item_map_tag] at h1
  exact h1

/-- Witness for C5 at the concrete build from `[0, 3, 5]`. -/
theorem claim_C5_centers_are_input_witness :
    (VPTree.mk (VPNode.node2 (0 : ℤ) 3 (.leaf 3) (.leaf 5))).root.toList.Perm [0, 3, 5] :=
  claim_C5_centers_are_input absDist (fun _ _ => 1) sortPartit
    (fun pos l k _ => sortPartit_kthBy pos l k) [0, 3, 5] _ build_035

/-- C6: the claim that `quick_select_by` always terminates with a rank-`k`
partition fails on the code: on the input `[2,2,2]` with the total order `≤` and
target rank 0, the call never returns, for every choice of the random pivot draws
(for every fuel bound and every draw sequence the fueled model yields `none`,
i.e. the two-pointer loop runs forever swapping the two pivot-tied elements). -/
theorem claim_C6_quick_select_diverges (fuel : ℕ) (draws : List ℕ) :
    quickSelectBy natLe fuel draws ([2, 2, 2] : List ℕ) 0 = none := by
  cases fuel with
  | zero =>
    rw [quickSelectBy]
    norm_num
    intro a b h
    simp at h
  | succ fuel =>
    rw [quickSelectBy]
    simp only [List.length_cons, List.length_nil, lswap_three_two, List.take]
    norm_num
    · simp only [partitionLoop_three_two]
    · intro a b h
      simp at h

/-- C7: at every internal node of a constructed tree the inner child holds exactly
`ceil(n/2)` of the `n` remaining points and the outer child exactly `floor(n/2)`
(the outer child being absent exactly when `floor(n/2) = 0`, i.e. when the node's
set had exactly 2 points), and `mu` equals the exact maximum vantage-point
distance over the inner half's points. -/
theorem claim_C7_split_sizes (dist : T → T → ℤ)
    (seldraw : List Bool → List (TaggedItem ℤ T) → ℕ)
    (partit : List Bool → List (TaggedItem ℤ T) → ℕ → List (TaggedItem ℤ T))
    (hp : ∀ pos l k, k < l.length → KthBy (fun a b : ℤ => a ≤ b) k l (partit pos l k))
    (items : List T) (tr : VPTree ℤ T)
    (htr : VPTree.new intOps dist seldraw partit items = some tr) :
    tr.root.SplitOk dist := by
  have hroot := VPTree.new_root intOps dist seldraw partit items tr htr
  have hb := new_builds dist seldraw partit hp
    (items.map fun x => ⟨x, intOps.zero⟩).length _ le_rfl [] tr.root hroot
  exact BuildInv.splitOk hb.2

/-- Witness for C7 at the concrete build from `[0, 3, 5]`. -/
theorem claim_C7_split_sizes_witness :
    (VPTree.mk (VPNode.node2 (0 : ℤ) 3 (.leaf 3) (.leaf 5))).root.SplitOk absDist :=
  claim_C7_split_sizes absDist (fun _ _ => 1) sortPartit
    (fun pos l k _ => sortPartit_kthBy pos l k) [0, 3, 5] _ build_035

/-- C8, counterexample: on the tree built from `[0, 1]` (a build in which every
comparison succeeds), the radius query for the query point `99` — whose distance to
the stored points is NaN — performs the comparison `d_center < radius` on an
incomparable pair (`partial_cmp` yields no ordering, third conjunct `none`), yet
`within_radius` returns normally with an (empty) result instead of failing. -/
theorem claim_C8_counterexample :
    VPTree.new floatOps nanDist (fun _ _ => 0) (fun _ l _ => l) [0, 1]
        = some ⟨.node1 1 (some 1) (.leaf 0)⟩ ∧
      partialCmpF (nanDist 99 1) (some 5) = none ∧
      VPTree.withinRadius floatOps nanDist ⟨.node1 1 (some 1) (.leaf 0)⟩ 99 (some 5) false
        = [] := by
  refine ⟨?_, by decide, by decide⟩
  simp only [VPTree.new]
  norm_num
  rw [VPNode.new]
  simp only [selectVantagePoint, splitItems, applyPartit, swapRemoveAt, nanDist,
    floatOps, List.enum, List.get?, List.getLast?, List.set, List.dropLast,
    List.map, List.foldl, List.length]
  norm_num
  rw [VPNode.new]

/-- C8 (amended): not every operation fails loudly on an incomparable value.
`within_radius` performs its distance comparisons with the raw `<`/`>` operators,
which treat a NaN as unordered (`false` on both sides): every entry it returns was
collected under a genuinely-ordered comparison `d < radius`, and a point whose
distance to the query is NaN is silently omitted while the operation returns
normally.  (The k-NN heap's `Ord::cmp` and construction's `kth_by` comparator do
`partial_cmp(..).unwrap()` and hence panic, but the query traversals do not.) -/
theorem claim_C8_nan_comparisons_silently_false (dist : T → T → Option ℤ) (q : T)
    (r : Option ℤ) (t : VPNode (Option ℤ) T) :
    ∀ x ∈ t.withinRadius floatOps dist q r [],
      ∃ d rv, x.1 = some d ∧ r = some rv ∧ d < rv := by
  intro x hx
  rcases withinRadius_float_entries dist q r t [] x hx with h | h
  · exact absurd h (List.not_mem_nil x)
  · exact h

/-- Witness for C8's amended theorem: a concrete query on a leaf tree returning a
non-NaN entry, to which the theorem applies. -/
theorem claim_C8_nan_comparisons_silently_false_witness :
    ∃ d rv, (some 0 : Option ℤ) = some d ∧ (some 5 : Option ℤ) = some rv ∧ d < rv := by
  have hmem : ((some 0 : Option ℤ), (0 : ℤ)) ∈
      (VPNode.leaf (T := ℤ) 0).withinRadius floatOps nanDist 0 (some 5) [] := by decide
  exact claim_C8_nan_comparisons_silently_false nanDist 0 (some 5)
    (VPNode.leaf 0) (some 0, 0) hmem

/-- C9: `VPTree::new` returns `None` exactly on the empty input; every non-empty
input yields `Some` tree (for any scalar operations and any oracles). -/
theorem claim_C9_none_iff_empty (ops : ScalarOps F) (dist : T → T → F)
    (seldraw : List Bool → List (TaggedItem F T) → ℕ)
    (partit : List Bool → List (TaggedItem F T) → ℕ → List (TaggedItem F T))
    (items : List T) :
    VPTree.new ops dist seldraw partit items = none ↔ items = [] := by
  constructor
  · intro h
    by_contra hne
    have hlen : 0 < items.length := List.length_pos.mpr hne
    unfold VPTree.new at h
    rw [if_pos hlen] at h
    have hs := new_isSome ops dist seldraw partit
      (items.map fun x => ⟨x, ops.zero⟩).length _ le_rfl
      (by simp only [ne_eq, List.map_eq_nil]; exact hne) []
    rcases Option.isSome_iff_exists.mp hs with ⟨rt, hrt⟩
    rw [hrt] at h
    simp at h
  · intro h
    subst h
    rfl

/-- C10: construction terminates (returns normally) on every finite non-empty
working set, for any scalar operations and any oracles: each recursive call of
`VPNode::new` receives a strictly smaller list, so the recursion is well-founded
on the set size. -/
theorem claim_C10_new_total (ops : ScalarOps F) (dist : T → T → F)
    (seldraw : List Bool → List (TaggedItem F T) → ℕ)
    (partit : List Bool → List (TaggedItem F T) → ℕ → List (TaggedItem F T))
    (pos : List Bool) (l : List (TaggedItem F T)) (hne : l ≠ []) :
    (VPNode.new ops dist seldraw partit pos l).isSome = true :=
  new_isSome ops dist seldraw partit l.length l le_rfl hne pos

/-- Witness for C10 on a concrete one-element working set. -/
theorem claim_C10_new_total_witness :
    (VPNode.new intOps absDist (fun _ _ => 0) sortPartit []
      [(⟨0, 0⟩ : TaggedItem ℤ ℤ)]).isSome = true :=
  claim_C10_new_total intOps absDist (fun _ _ => 0) sortPartit []
    [(⟨0, 0⟩ : TaggedItem ℤ ℤ)] (by decide)

end VPT
